import Mathlib

/-!
Shallow embedding of the core conversion logic of the Excel-to-XML
converter (source: src/components/ExcelToXmlConverter.tsx).

Strings are modelled as `List Char`; a spreadsheet cell is a string
(the extractor coerces every cell to a string, with the empty string
for blanks).  The serializer builds the output by list concatenation
exactly in the order the source concatenates template strings.
-/

set_option maxRecDepth 10000

namespace ExcelXml

/-- The apostrophe character (code point 39), named to keep literals simple. -/
def aposC : Char := Char.ofNat 39

/-- Effect of one JS global single-character replacement
`str.replace(/c/g, r)`: every occurrence of the character `c` is expanded
to the string `r`; all other characters are kept. -/
def replaceAllChar (c : Char) (r : List Char) : List Char → List Char
  | [] => []
  | x :: xs => (if x = c then r else [x]) ++ replaceAllChar c r xs

/-- `escapeXml` from the source: the five global replacements applied in
source order: ampersand, then less-than, greater-than, double quote,
apostrophe. -/
def escapeXml (s : List Char) : List Char :=
  replaceAllChar aposC ['&', 'a', 'p', 'o', 's', ';']
    (replaceAllChar '"' ['&', 'q', 'u', 'o', 't', ';']
      (replaceAllChar '>' ['&', 'g', 't', ';']
        (replaceAllChar '<' ['&', 'l', 't', ';']
          (replaceAllChar '&' ['&', 'a', 'm', 'p', ';'] s))))

/-- Per-character expansion; proved below to agree with the composition of
the five replacements in `escapeXml`. -/
def escChar (c : Char) : List Char :=
  if c = '&' then ['&', 'a', 'm', 'p', ';']
  else if c = '<' then ['&', 'l', 't', ';']
  else if c = '>' then ['&', 'g', 't', ';']
  else if c = '"' then ['&', 'q', 'u', 'o', 't', ';']
  else if c = aposC then ['&', 'a', 'p', 'o', 's', ';']
  else [c]

/-- Character-by-character escaping map. -/
def escMap : List Char → List Char
  | [] => []
  | c :: cs => escChar c ++ escMap cs

theorem replaceAllChar_append (c : Char) (r a b : List Char) :
    replaceAllChar c r (a ++ b) = replaceAllChar c r a ++ replaceAllChar c r b := by
  induction a with
  | nil => rfl
  | cons x xs ih => simp [replaceAllChar, ih, List.append_assoc]

theorem escapeXml_append (a b : List Char) :
    escapeXml (a ++ b) = escapeXml a ++ escapeXml b := by
  simp [escapeXml, replaceAllChar_append]

theorem escapeXml_single (c : Char) : escapeXml [c] = escChar c := by
  by_cases h1 : c = '&'
  · subst h1; rfl
  by_cases h2 : c = '<'
  · subst h2; rfl
  by_cases h3 : c = '>'
  · subst h3; rfl
  by_cases h4 : c = '"'
  · subst h4; rfl
  by_cases h5 : c = aposC
  · subst h5; rfl
  simp [escapeXml, replaceAllChar, escChar, h1, h2, h3, h4, h5]

theorem escapeXml_eq_escMap (s : List Char) : escapeXml s = escMap s := by
  induction s with
  | nil => rfl
  | cons c cs ih =>
    have hsplit : c :: cs = [c] ++ cs := rfl
    rw [hsplit, escapeXml_append, escapeXml_single, ih]
    rfl

/-- The five XML entities, as character lists. -/
def ampEnt : List Char := ['&', 'a', 'm', 'p', ';']

def ltEnt : List Char := ['&', 'l', 't', ';']

def gtEnt : List Char := ['&', 'g', 't', ';']

def quotEnt : List Char := ['&', 'q', 'u', 'o', 't', ';']

def aposEnt : List Char := ['&', 'a', 'p', 'o', 's', ';']

theorem escChar_infix_escMap (x : Char) (s : List Char) (hx : x ∈ s) :
    escChar x <:+: escMap s := by
  induction s with
  | nil => cases hx
  | cons a t ih =>
    rcases List.mem_cons.mp hx with h | h
    · subst h
      exact ⟨[], escMap t, by simp [escMap]⟩
    · obtain ⟨u, v, huv⟩ := ih h
      refine ⟨escChar a ++ u, v, ?_⟩
      rw [show escMap (a :: t) = escChar a ++ escMap t from rfl, ← huv]
      simp [List.append_assoc]

theorem not_mem_escMap (c : Char) (hc : ∀ x, c ∉ escChar x) (s : List Char) :
    c ∉ escMap s := by
  induction s with
  | nil => simp [escMap]
  | cons a t ih =>
    simp only [escMap, List.mem_append]
    rintro (h | h)
    · exact hc a h
    · exact ih h

theorem lt_not_mem_escChar : ∀ x, '<' ∉ escChar x := by
  intro x
  by_cases h1 : x = '&'
  · subst h1; decide
  by_cases h2 : x = '<'
  · subst h2; decide
  by_cases h3 : x = '>'
  · subst h3; decide
  by_cases h4 : x = '"'
  · subst h4; decide
  by_cases h5 : x = aposC
  · subst h5; decide
  simp only [escChar, h1, h2, h3, h4, h5, if_false, List.mem_singleton]
  exact fun h => h2 h.symm

theorem gt_not_mem_escChar : ∀ x, '>' ∉ escChar x := by
  intro x
  by_cases h1 : x = '&'
  · subst h1; decide
  by_cases h2 : x = '<'
  · subst h2; decide
  by_cases h3 : x = '>'
  · subst h3; decide
  by_cases h4 : x = '"'
  · subst h4; decide
  by_cases h5 : x = aposC
  · subst h5; decide
  simp only [escChar, h1, h2, h3, h4, h5, if_false, List.mem_singleton]
  exact fun h => h3 h.symm

theorem quot_not_mem_escChar : ∀ x, '"' ∉ escChar x := by
  intro x
  by_cases h1 : x = '&'
  · subst h1; decide
  by_cases h2 : x = '<'
  · subst h2; decide
  by_cases h3 : x = '>'
  · subst h3; decide
  by_cases h4 : x = '"'
  · subst h4; decide
  by_cases h5 : x = aposC
  · subst h5; decide
  simp only [escChar, h1, h2, h3, h4, h5, if_false, List.mem_singleton]
  exact fun h => h4 h.symm

theorem apos_not_mem_escChar : ∀ x, aposC ∉ escChar x := by
  intro x
  by_cases h1 : x = '&'
  · subst h1; decide
  by_cases h2 : x = '<'
  · subst h2; decide
  by_cases h3 : x = '>'
  · subst h3; decide
  by_cases h4 : x = '"'
  · subst h4; decide
  by_cases h5 : x = aposC
  · subst h5; decide
  simp only [escChar, h1, h2, h3, h4, h5, if_false, List.mem_singleton]
  exact fun h => h5 h.symm

theorem escapeXml_lt_not_mem (s : List Char) : '<' ∉ escapeXml s := by
  rw [escapeXml_eq_escMap]
  exact not_mem_escMap _ lt_not_mem_escChar s

/-- After an ampersand, the text must continue with the body of one of the
five entities produced by `escapeXml`. -/
def entAfterAmp : List Char → Bool
  | 'a' :: 'm' :: 'p' :: ';' :: _ => true
  | 'l' :: 't' :: ';' :: _ => true
  | 'g' :: 't' :: ';' :: _ => true
  | 'q' :: 'u' :: 'o' :: 't' :: ';' :: _ => true
  | 'a' :: 'p' :: 'o' :: 's' :: ';' :: _ => true
  | _ => false

/-- Every ampersand in the list starts one of the five XML entities, i.e.
no ampersand is left unescaped. -/
def ampOk : List Char → Bool
  | [] => true
  | c :: t => (if c = '&' then entAfterAmp t else true) && ampOk t

theorem ampOk_escChar_append (a : Char) (l : List Char) :
    ampOk (escChar a ++ l) = ampOk l := by
  by_cases h1 : a = '&'
  · subst h1; simp [escChar, ampOk, entAfterAmp]
  by_cases h2 : a = '<'
  · subst h2; simp [escChar, ampOk, entAfterAmp]
  by_cases h3 : a = '>'
  · subst h3; simp [escChar, ampOk, entAfterAmp]
  by_cases h4 : a = '"'
  · subst h4; simp [escChar, ampOk, entAfterAmp]
  by_cases h5 : a = aposC
  · subst h5; simp [escChar, ampOk, entAfterAmp]
  simp [escChar, h1, h2, h3, h4, h5, ampOk]

theorem ampOk_escMap (s : List Char) : ampOk (escMap s) = true := by
  induction s with
  | nil => rfl
  | cons a t ih => rw [escMap, ampOk_escChar_append, ih]

/-- Claim C2: `escapeXml` applies the five substitutions in source order,
so for every input containing one of the five special characters the
result contains the corresponding entity, the characters less-than,
greater-than, double quote and apostrophe never survive into the result,
and every ampersand of the result begins one of the five entities
(no unescaped ampersand). -/
theorem escapeXml_entities_sound (s : List Char) :
    ('&' ∈ s → ampEnt <:+: escapeXml s) ∧
    ('<' ∈ s → ltEnt <:+: escapeXml s) ∧
    ('>' ∈ s → gtEnt <:+: escapeXml s) ∧
    ('"' ∈ s → quotEnt <:+: escapeXml s) ∧
    (aposC ∈ s → aposEnt <:+: escapeXml s) ∧
    '<' ∉ escapeXml s ∧ '>' ∉ escapeXml s ∧ '"' ∉ escapeXml s ∧
    aposC ∉ escapeXml s ∧ ampOk (escapeXml s) = true := by
  rw [escapeXml_eq_escMap]
  refine ⟨fun h => ?_, fun h => ?_, fun h => ?_, fun h => ?_, fun h => ?_,
    not_mem_escMap _ lt_not_mem_escChar s, not_mem_escMap _ gt_not_mem_escChar s,
    not_mem_escMap _ quot_not_mem_escChar s, not_mem_escMap _ apos_not_mem_escChar s,
    ampOk_escMap s⟩
  · have := escChar_infix_escMap '&' s h
    simpa [escChar, ampEnt] using this
  · have := escChar_infix_escMap '<' s h
    simpa [escChar, ltEnt] using this
  · have := escChar_infix_escMap '>' s h
    simpa [escChar, gtEnt] using this
  · have := escChar_infix_escMap '"' s h
    simpa [escChar, quotEnt] using this
  · have := escChar_infix_escMap aposC s h
    simpa [escChar, aposEnt] using this

/-- Witness for C2 on a concrete string containing all five characters. -/
theorem escapeXml_entities_sound_witness :
    (ampEnt <:+: escapeXml ['&', '<', '>', '"', aposC]) ∧
    (ltEnt <:+: escapeXml ['&', '<', '>', '"', aposC]) ∧
    (gtEnt <:+: escapeXml ['&', '<', '>', '"', aposC]) ∧
    (quotEnt <:+: escapeXml ['&', '<', '>', '"', aposC]) ∧
    (aposEnt <:+: escapeXml ['&', '<', '>', '"', aposC]) ∧
    ampOk (escapeXml ['&', '<', '>', '"', aposC]) = true := by
  have h := escapeXml_entities_sound ['&', '<', '>', '"', aposC]
  exact ⟨h.1 (by decide), h.2.1 (by decide), h.2.2.1 (by decide),
    h.2.2.2.1 (by decide), h.2.2.2.2.1 (by decide), h.2.2.2.2.2.2.2.2.2⟩

/-- The regex class `[a-zA-Z]`. -/
def isLetter (c : Char) : Bool :=
  (decide ('a' ≤ c) && decide (c ≤ 'z')) || (decide ('A' ≤ c) && decide (c ≤ 'Z'))

/-- The regex class `[0-9]`. -/
def isDigitC (c : Char) : Bool := decide ('0' ≤ c) && decide (c ≤ '9')

/-- The regex class `[a-zA-Z0-9_-]` of characters kept by sanitization. -/
def isTagChar (c : Char) : Bool :=
  isLetter c || isDigitC c || decide (c = '_') || decide (c = '-')

/-- The regex class `[a-zA-Z_]` allowed as the leading tag character. -/
def isLeadChar (c : Char) : Bool := isLetter c || decide (c = '_')

/-- Effect on one character of `tag.replace(/[^a-zA-Z0-9_-]/g, "_")`. -/
def keepTagChar (c : Char) : Char := if isTagChar c then c else '_'

/-- Effect of `.replace(/^[^a-zA-Z_]/, "_")`: the anchored, non-global regex
replaces only a first character outside `[a-zA-Z_]`; the empty string is
unchanged. -/
def fixLeading : List Char → List Char
  | [] => []
  | c :: rest => (if isLeadChar c then c else '_') :: rest

/-- `sanitizeTagName` from the source: first the global class replacement,
then the leading-character fix. -/
def sanitizeTagName (tag : List Char) : List Char :=
  fixLeading (tag.map keepTagChar)

/-- Decimal digit characters of a natural number, most significant first,
with structural fuel recursion (the fuel `n + 1` always suffices).  This is
the number-to-string rendering the JS template literal performs. -/
def natCharsAux : Nat → Nat → List Char
  | 0, _ => []
  | fuel + 1, n =>
    if n < 10 then [Nat.digitChar n]
    else natCharsAux fuel (n / 10) ++ [Nat.digitChar (n % 10)]

def natChars (n : Nat) : List Char := natCharsAux (n + 1) n

/-- The fallback tag for 0-based column index `i`: the text `Column`
followed by the decimal rendering of the 1-based index. -/
def columnTag (i : Nat) : List Char :=
  ['C', 'o', 'l', 'u', 'm', 'n'] ++ natChars (i + 1)

/-- Tag derivation for the cell at 0-based column `i`, following the source
conditional: a present, truthy (non-empty) header cell is sanitized;
an absent or empty header cell falls back to the column tag. -/
def tagFor (headers : List (List Char)) (i : Nat) : List Char :=
  match headers.get? i with
  | some h => if h.isEmpty then columnTag i else sanitizeTagName h
  | none => columnTag i

/-- Decision procedure for the regex `^[A-Za-z_][A-Za-z0-9_-]*$`. -/
def matchesTagName : List Char → Bool
  | [] => false
  | c :: rest => isLeadChar c && rest.all isTagChar

theorem keepTagChar_tagChar (c : Char) : isTagChar (keepTagChar c) = true := by
  unfold keepTagChar
  by_cases h : isTagChar c = true
  · rw [if_pos h]; exact h
  · rw [if_neg h]; decide

theorem keepTagChar_of_tagChar (c : Char) (h : isTagChar c = true) :
    keepTagChar c = c := by
  unfold keepTagChar
  rw [if_pos h]

theorem leadFix_leadChar (c : Char) :
    isLeadChar (if isLeadChar c then c else '_') = true := by
  by_cases h : isLeadChar c = true
  · rw [if_pos h]; exact h
  · rw [if_neg h]; decide

theorem leadChar_tagChar (c : Char) (h : isLeadChar c = true) :
    isTagChar c = true := by
  simp only [isLeadChar, Bool.or_eq_true] at h
  simp only [isTagChar, Bool.or_eq_true]
  tauto

theorem sanitizeTagName_length (h : List Char) :
    (sanitizeTagName h).length = h.length := by
  unfold sanitizeTagName
  cases hm : h.map keepTagChar with
  | nil => simp_all [fixLeading]
  | cons c rest =>
    have hlen := congrArg List.length hm
    simp only [List.length_map, List.length_cons] at hlen
    show ((if isLeadChar c then c else '_') :: rest).length = h.length
    simp only [List.length_cons]
    omega

theorem sanitizeTagName_mem_tagChar (h : List Char) (c : Char)
    (hc : c ∈ sanitizeTagName h) : isTagChar c = true := by
  unfold sanitizeTagName at hc
  cases hm : h.map keepTagChar with
  | nil => rw [hm] at hc; cases hc
  | cons a rest =>
    rw [hm] at hc
    rw [show fixLeading (a :: rest) = (if isLeadChar a then a else '_') :: rest
      from rfl] at hc
    have hmem : ∀ x ∈ a :: rest, isTagChar x = true := by
      intro x hx
      have : x ∈ h.map keepTagChar := by rw [hm]; exact hx
      obtain ⟨y, _, hy⟩ := List.mem_map.mp this
      rw [← hy]
      exact keepTagChar_tagChar y
    rcases List.mem_cons.mp hc with hc | hc
    · subst hc
      by_cases ha : isLeadChar a = true
      · rw [if_pos ha]
        exact hmem a (List.mem_cons_self a rest)
      · rw [if_neg ha]
        decide
    · exact hmem c (List.mem_cons_of_mem a hc)

theorem digitChar_tagChar : ∀ d, d < 10 → isTagChar (Nat.digitChar d) = true := by
  decide

theorem natCharsAux_tagChar (fuel : Nat) :
    ∀ n, ∀ c ∈ natCharsAux fuel n, isTagChar c = true := by
  induction fuel with
  | zero => intro n c hc; cases hc
  | succ fuel ih =>
    intro n c hc
    rw [natCharsAux] at hc
    by_cases h : n < 10
    · rw [if_pos h] at hc
      simp only [List.mem_singleton] at hc
      subst hc
      exact digitChar_tagChar n h
    · rw [if_neg h] at hc
      rcases List.mem_append.mp hc with hc | hc
      · exact ih (n / 10) c hc
      · simp only [List.mem_singleton] at hc
        subst hc
        exact digitChar_tagChar _ (Nat.mod_lt _ (by omega))

theorem natChars_tagChar (n : Nat) : ∀ c ∈ natChars n, isTagChar c = true :=
  natCharsAux_tagChar (n + 1) n

theorem columnTag_matches (i : Nat) : matchesTagName (columnTag i) = true := by
  have hrest : (['o', 'l', 'u', 'm', 'n'] ++ natChars (i + 1)).all isTagChar = true := by
    rw [List.all_append, Bool.and_eq_true]
    refine ⟨by decide, ?_⟩
    rw [List.all_eq_true]
    exact natChars_tagChar (i + 1)
  show (isLeadChar 'C' && (['o', 'l', 'u', 'm', 'n'] ++ natChars (i + 1)).all isTagChar) = true
  rw [hrest]
  decide

theorem columnTag_tagChar (i : Nat) : ∀ c ∈ columnTag i, isTagChar c = true := by
  intro c hc
  rcases List.mem_append.mp hc with hc | hc
  · fin_cases hc <;> decide
  · exact natChars_tagChar (i + 1) c hc

theorem sanitizeTagName_matches (h : List Char) (hne : h ≠ []) :
    matchesTagName (sanitizeTagName h) = true := by
  cases h with
  | nil => exact absurd rfl hne
  | cons c rest =>
    show matchesTagName (fixLeading (keepTagChar c :: rest.map keepTagChar)) = true
    unfold fixLeading matchesTagName
    rw [Bool.and_eq_true, List.all_eq_true]
    refine ⟨leadFix_leadChar _, ?_⟩
    intro x hx
    obtain ⟨y, _, hy⟩ := List.mem_map.mp hx
    rw [← hy]
    exact keepTagChar_tagChar y

theorem tagFor_none (headers : List (List Char)) (i : Nat)
    (h : headers.get? i = none) : tagFor headers i = columnTag i := by
  unfold tagFor
  rw [h]

theorem tagFor_some (headers : List (List Char)) (i : Nat) (hc : List Char)
    (h : headers.get? i = some hc) :
    tagFor headers i = if hc.isEmpty then columnTag i else sanitizeTagName hc := by
  unfold tagFor
  rw [h]

theorem tagFor_tagChar (headers : List (List Char)) (i : Nat) :
    ∀ c ∈ tagFor headers i, isTagChar c = true := by
  cases hg : headers.get? i with
  | none => rw [tagFor_none headers i hg]; exact columnTag_tagChar i
  | some h =>
    rw [tagFor_some headers i h hg]
    by_cases he : h.isEmpty = true
    · rw [if_pos he]; exact columnTag_tagChar i
    · rw [if_neg he]
      intro c hc
      exact sanitizeTagName_mem_tagChar h c hc

/-- Claim C3: the tag derived for any column (sanitized header when the
header cell is non-empty, column fallback otherwise) matches the regex
`^[A-Za-z_][A-Za-z0-9_-]*$`, and sanitization preserves length, so it
never turns a non-empty header into an empty tag. -/
theorem derived_tag_matches_name_pattern (headers : List (List Char)) (i : Nat) :
    matchesTagName (tagFor headers i) = true ∧
    ∀ h : List Char, (sanitizeTagName h).length = h.length := by
  refine ⟨?_, sanitizeTagName_length⟩
  cases hg : headers.get? i with
  | none => rw [tagFor_none headers i hg]; exact columnTag_matches i
  | some h =>
    rw [tagFor_some headers i h hg]
    by_cases he : h.isEmpty = true
    · rw [if_pos he]; exact columnTag_matches i
    · rw [if_neg he]
      exact sanitizeTagName_matches h (by simpa [List.isEmpty_iff] using he)

/-- Witness for C3 at a concrete header row. -/
theorem derived_tag_matches_name_pattern_witness :
    matchesTagName (tagFor [['1', 'a', '!']] 0) = true :=
  (derived_tag_matches_name_pattern [['1', 'a', '!']] 0).1

theorem map_keep_idem (l : List Char) :
    (l.map keepTagChar).map keepTagChar = l.map keepTagChar := by
  induction l with
  | nil => rfl
  | cons c t ih =>
    simp only [List.map_cons, ih, List.cons.injEq, and_true]
    exact keepTagChar_of_tagChar _ (keepTagChar_tagChar c)

/-- Claim C9: `sanitizeTagName` is idempotent. -/
theorem sanitizeTagName_idempotent (t : List Char) :
    sanitizeTagName (sanitizeTagName t) = sanitizeTagName t := by
  cases t with
  | nil => rfl
  | cons c rest =>
    have h4 : isLeadChar
        (if isLeadChar (keepTagChar c) then keepTagChar c else '_') = true :=
      leadFix_leadChar (keepTagChar c)
    have h3 : keepTagChar
        (if isLeadChar (keepTagChar c) then keepTagChar c else '_') =
        (if isLeadChar (keepTagChar c) then keepTagChar c else '_') :=
      keepTagChar_of_tagChar _ (leadChar_tagChar _ h4)
    show (if isLeadChar (keepTagChar
          (if isLeadChar (keepTagChar c) then keepTagChar c else '_')) then
        keepTagChar (if isLeadChar (keepTagChar c) then keepTagChar c else '_')
      else '_') :: (rest.map keepTagChar).map keepTagChar =
      (if isLeadChar (keepTagChar c) then keepTagChar c else '_') ::
        rest.map keepTagChar
    rw [h3, map_keep_idem, if_pos h4]

/-- Witness for C9 at a concrete tag. -/
theorem sanitizeTagName_idempotent_witness :
    sanitizeTagName (sanitizeTagName ['1', 'a', '!']) = sanitizeTagName ['1', 'a', '!'] :=
  sanitizeTagName_idempotent ['1', 'a', '!']

/-- Claim C6: the tag of an emitted cell at 0-based column `i` is the
column fallback exactly when the header cell at `i` is absent (header row
shorter) or the empty string, and the sanitized header cell otherwise;
the fallback is the text `Column` followed by the decimal 1-based index. -/
theorem cell_tag_selection (headers : List (List Char)) (i : Nat) :
    (headers.get? i = none → tagFor headers i = columnTag i) ∧
    (headers.get? i = some [] → tagFor headers i = columnTag i) ∧
    (∀ hc, headers.get? i = some hc → hc ≠ [] →
      tagFor headers i = sanitizeTagName hc) ∧
    columnTag i = ['C', 'o', 'l', 'u', 'm', 'n'] ++ natChars (i + 1) := by
  refine ⟨fun h => tagFor_none headers i h, fun h => ?_, fun hc hg hne => ?_, rfl⟩
  · rw [tagFor_some headers i [] h]
    rfl
  · rw [tagFor_some headers i hc hg]
    have hf : hc.isEmpty = false := by
      cases hc with
      | nil => exact absurd rfl hne
      | cons a b => rfl
    rw [hf]
    rfl

/-- Witness for C6: an empty header cell and an absent header cell both
fall back to the column tag; a non-empty one is sanitized. -/
theorem cell_tag_selection_witness :
    tagFor [[], ['A']] 0 = columnTag 0 ∧
    tagFor [[], ['A']] 5 = columnTag 5 ∧
    tagFor [[], ['A']] 1 = sanitizeTagName ['A'] :=
  ⟨(cell_tag_selection [[], ['A']] 0).2.1 rfl,
   (cell_tag_selection [[], ['A']] 5).1 rfl,
   (cell_tag_selection [[], ['A']] 1).2.2.1 ['A'] rfl (by decide)⟩

/-- One extracted sheet: its name and its 2D cell array (rows of string
cells; the extractor coerces cells to strings with an empty-string
default). -/
structure SheetData where
  name : List Char
  data : List (List (List Char))
deriving DecidableEq

/-- Serialization of one cell: the template
`      <TAG>VALUE</TAG>` followed by a newline. -/
def cellXml (tag val : List Char) : List Char :=
  [' ', ' ', ' ', ' ', ' ', ' '] ++
    '<' :: (tag ++ '>' :: (val ++ '<' :: '/' :: (tag ++ ['>', '\n'])))

/-- The cell strings of one data row, mirroring `row.forEach` with its
running 0-based `cellIndex` starting at `i`: one cell element per present
cell, tag from the header row, value escaped. -/
def rowCellsAux (headers : List (List Char)) : Nat → List (List Char) → List (List Char)
  | _, [] => []
  | i, cell :: cells =>
    cellXml (tagFor headers i) (escapeXml cell) :: rowCellsAux headers (i + 1) cells

def rowOpen : List Char := [' ', ' ', ' ', ' ', '<', 'R', 'o', 'w', '>', '\n']

def rowClose : List Char := [' ', ' ', ' ', ' ', '<', '/', 'R', 'o', 'w', '>', '\n']

/-- Serialization of one emitted data row. -/
def rowXml (headers row : List (List Char)) : List Char :=
  rowOpen ++ List.flatten (rowCellsAux headers 0 row) ++ rowClose

/-- The row-emission test `row.some(cell => cell !== "")`. -/
def rowNonEmpty (row : List (List Char)) : Bool :=
  row.any fun cell => !cell.isEmpty

/-- The pattern opening a sheet element: `<Sheet name="`. -/
def sheetPat : List Char :=
  ['<', 'S', 'h', 'e', 'e', 't', ' ', 'n', 'a', 'm', 'e', '=', '"']

def attrOpen : List Char := ' ' :: ' ' :: sheetPat

def attrClose : List Char := ['"', '>', '\n']

def sheetCloseStr : List Char :=
  [' ', ' ', '<', '/', 'S', 'h', 'e', 'e', 't', '>', '\n']

/-- The row section of a sheet: data rows (all rows after the header row)
that pass the non-empty test, serialized in order.  A sheet with no rows
at all contributes nothing, exactly as the source's
`if (sheet.data.length > 0)` guard. -/
def sheetBody : SheetData → List Char
  | ⟨_, []⟩ => []
  | ⟨_, headers :: rest⟩ =>
    List.flatten ((rest.filter rowNonEmpty).map (rowXml headers))

/-- Serialization of one selected sheet. -/
def sheetXml (s : SheetData) : List Char :=
  attrOpen ++ escapeXml s.name ++ attrClose ++ sheetBody s ++ sheetCloseStr

/-- The document prology: XML declaration plus the opening root element. -/
def xmlHeaderChars : List Char :=
  ['<', '?', 'x', 'm', 'l', ' ', 'v', 'e', 'r', 's', 'i', 'o', 'n', '=', '"',
   '1', '.', '0', '"', ' ', 'e', 'n', 'c', 'o', 'd', 'i', 'n', 'g', '=', '"',
   'U', 'T', 'F', '-', '8', '"', '?', '>', '\n',
   '<', 'W', 'o', 'r', 'k', 'b', 'o', 'o', 'k', '>', '\n']

def footerChars : List Char :=
  ['<', '/', 'W', 'o', 'r', 'k', 'b', 'o', 'o', 'k', '>']

inductive ConvertError where
  | EmptySelection
deriving DecidableEq

/-- `convertToXml` from the source: guard on empty sheet list or empty
selection, then serialize the sheets whose names are selected, keeping the
extraction order. -/
def convertToXml (sheets : List SheetData) (sel : Finset (List Char)) :
    Except ConvertError (List Char) :=
  if sheets.length = 0 ∨ sel.card = 0 then
    Except.error ConvertError.EmptySelection
  else
    Except.ok (xmlHeaderChars ++
      List.flatten (((sheets.filter fun s => decide (s.name ∈ sel)).map sheetXml)) ++
      footerChars)

theorem rowCellsAux_length (headers : List (List Char)) (i : Nat)
    (row : List (List Char)) :
    (rowCellsAux headers i row).length = row.length := by
  induction row generalizing i with
  | nil => rfl
  | cons c cs ih => simp [rowCellsAux, ih]

/-- Claim C4: a data row is emitted exactly when some cell is a non-empty
string (so rows of only empty strings, including zero-length rows, are
skipped), and an emitted row carries one cell element per cell of the
row. -/
theorem row_emission_spec (name : List Char) (headers row : List (List Char))
    (rows : List (List (List Char))) :
    (rowNonEmpty row = true ↔ ∃ c ∈ row, c ≠ []) ∧
    (rowCellsAux headers 0 row).length = row.length ∧
    sheetBody ⟨name, headers :: rows⟩ =
      List.flatten ((rows.filter rowNonEmpty).map (rowXml headers)) := by
  refine ⟨?_, rowCellsAux_length headers 0 row, rfl⟩
  unfold rowNonEmpty
  rw [List.any_eq_true]
  constructor
  · rintro ⟨c, hc, hne⟩
    refine ⟨c, hc, ?_⟩
    simpa [List.isEmpty_iff] using hne
  · rintro ⟨c, hc, hne⟩
    refine ⟨c, hc, ?_⟩
    simpa [List.isEmpty_iff] using hne

/-- Witness for C4 at a concrete row. -/
theorem row_emission_spec_witness :
    (rowCellsAux [['A']] 0 [['x'], []]).length = ([['x'], []] : List (List Char)).length :=
  (row_emission_spec ['S'] [['A']] [['x'], []] []).2.1

/-- Claim C7 counterexample: serializing a ragged row is not the same as
serializing the row padded with empty strings to the header length; the
padded row emits an extra empty element. -/
theorem ragged_row_not_padded :
    rowXml [['A'], ['B']] [['x']] ≠ rowXml [['A'], ['B']] [['x'], []] := by
  decide

theorem rowCellsAux_append_headers (headers extra : List (List Char))
    (i : Nat) (row : List (List Char)) (h : i + row.length ≤ headers.length) :
    rowCellsAux (headers ++ extra) i row = rowCellsAux headers i row := by
  induction row generalizing i with
  | nil => rfl
  | cons c cs ih =>
    have hi : i < headers.length := by
      simp only [List.length_cons] at h
      omega
    have hget : (headers ++ extra).get? i = headers.get? i :=
      List.get?_append hi
    have htag : tagFor (headers ++ extra) i = tagFor headers i := by
      unfold tagFor
      rw [hget]
    simp only [rowCellsAux, htag]
    rw [ih (i + 1) (by simp only [List.length_cons] at h; omega)]

/-- Claim C7 amended: a ragged data row (fewer cells than the header row)
is serialized from exactly its own cells; the missing trailing cells
produce no elements at all, and header cells beyond the row's length are
never consulted (appending extra headers does not change the row's
output). -/
theorem rowXml_ignores_extra_headers (headers extra row : List (List Char))
    (h : row.length ≤ headers.length) :
    rowXml (headers ++ extra) row = rowXml headers row := by
  unfold rowXml
  rw [rowCellsAux_append_headers headers extra 0 row (by omega)]

/-- Witness for the amended C7. -/
theorem rowXml_ignores_extra_headers_witness :
    rowXml ([['A'], ['B']] ++ [['C']]) [['x']] = rowXml [['A'], ['B']] [['x']] :=
  rowXml_ignores_extra_headers [['A'], ['B']] [['C']] [['x']] (by decide)

/-- Claim C10: a selected sheet with no rows at all, or with only a header
row, still produces its opening and closing sheet element with zero row
children, and converting such a sheet succeeds. -/
theorem empty_sheet_serialization (n : List Char) (h : List (List Char)) :
    sheetXml ⟨n, []⟩ = attrOpen ++ escapeXml n ++ attrClose ++ sheetCloseStr ∧
    sheetXml ⟨n, [h]⟩ = attrOpen ++ escapeXml n ++ attrClose ++ sheetCloseStr ∧
    convertToXml [⟨n, []⟩] {n} =
      Except.ok (xmlHeaderChars ++
        (attrOpen ++ escapeXml n ++ attrClose ++ sheetCloseStr) ++ footerChars) := by
  have h1 : sheetXml ⟨n, []⟩ = attrOpen ++ escapeXml n ++ attrClose ++ sheetCloseStr := by
    unfold sheetXml
    rw [show sheetBody ⟨n, []⟩ = [] from rfl]
    simp [List.append_assoc]
  have h2 : sheetXml ⟨n, [h]⟩ = attrOpen ++ escapeXml n ++ attrClose ++ sheetCloseStr := by
    unfold sheetXml
    rw [show sheetBody ⟨n, [h]⟩ = [] from rfl]
    simp [List.append_assoc]
  refine ⟨h1, h2, ?_⟩
  unfold convertToXml
  rw [if_neg (by simp)]
  rw [show ([⟨n, []⟩] : List SheetData).filter (fun s => decide (s.name ∈ ({n} : Finset (List Char)))) = [⟨n, []⟩] by simp]
  simp only [List.map_cons, List.map_nil, List.flatten]
  rw [h1]
  simp [List.append_assoc]

/-- Witness for C10. -/
theorem empty_sheet_serialization_witness :
    sheetXml ⟨['A'], []⟩ =
      attrOpen ++ escapeXml ['A'] ++ attrClose ++ sheetCloseStr :=
  (empty_sheet_serialization ['A'] []).1

/-- Claim C1 counterexample: with a non-empty sheet list and a non-empty
selection that matches no sheet name, the conversion does not fail; it
succeeds with a workbook containing no sheet elements. -/
theorem convert_unmatched_selection_succeeds :
    convertToXml [⟨['A'], []⟩] {['B']} = Except.ok (xmlHeaderChars ++ footerChars) ∧
    convertToXml [⟨['A'], []⟩] {['B']} ≠ Except.error ConvertError.EmptySelection := by
  have h1 : convertToXml [⟨['A'], []⟩] {['B']} =
      Except.ok (xmlHeaderChars ++ footerChars) := by rfl
  refine ⟨h1, ?_⟩
  rw [h1]
  simp

/-- Claim C1 amended: the conversion fails with `EmptySelection` exactly
when the sheet list is empty or the selection set is empty; with a
non-empty sheet list and non-empty selection matching no sheet, it
succeeds and produces a workbook with no sheet elements. -/
theorem convert_empty_selection_error_iff (sheets : List SheetData)
    (sel : Finset (List Char)) :
    (convertToXml sheets sel = Except.error ConvertError.EmptySelection ↔
      (sheets = [] ∨ sel = ∅)) ∧
    (sheets ≠ [] → sel ≠ ∅ → (∀ s ∈ sheets, s.name ∉ sel) →
      convertToXml sheets sel = Except.ok (xmlHeaderChars ++ footerChars)) := by
  by_cases hc : sheets.length = 0 ∨ sel.card = 0
  · constructor
    · unfold convertToXml
      rw [if_pos hc]
      refine ⟨fun _ => ?_, fun _ => rfl⟩
      rcases hc with hc | hc
      · exact Or.inl (List.length_eq_zero.mp hc)
      · exact Or.inr (Finset.card_eq_zero.mp hc)
    · intro h1 h2 _
      rcases hc with hc | hc
      · exact absurd (List.length_eq_zero.mp hc) h1
      · exact absurd (Finset.card_eq_zero.mp hc) h2
  · constructor
    · unfold convertToXml
      rw [if_neg hc]
      constructor
      · intro h
        exact absurd h (by simp)
      · rintro (h | h)
        · exact absurd (Or.inl (by simp [h])) hc
        · exact absurd (Or.inr (by simp [h])) hc
    · intro _ _ hnone
      have hfil : sheets.filter (fun s => decide (s.name ∈ sel)) = [] := by
        rw [List.filter_eq_nil]
        intro s hs
        simpa using hnone s hs
      unfold convertToXml
      rw [if_neg hc, hfil]
      simp

/-- Witness for the amended C1. -/
theorem convert_empty_selection_error_iff_witness :
    (convertToXml [⟨['A'], []⟩] {['B']} = Except.error ConvertError.EmptySelection ↔
      (([⟨['A'], []⟩] : List SheetData) = [] ∨ ({['B']} : Finset (List Char)) = ∅)) ∧
    convertToXml [⟨['A'], []⟩] {['B']} = Except.ok (xmlHeaderChars ++ footerChars) :=
  ⟨(convert_empty_selection_error_iff [⟨['A'], []⟩] {['B']}).1,
   (convert_empty_selection_error_iff [⟨['A'], []⟩] {['B']}).2
     (by simp) (by decide) (by decide)⟩

/-- Does `pat` occur as a prefix of `l`? -/
def startsWith : List Char → List Char → Bool
  | [], _ => true
  | _ :: _, [] => false
  | p :: ps, c :: cs => if p = c then startsWith ps cs else false

/-- Number of positions of `l` at which `pat` occurs as a substring. -/
def countSub (pat : List Char) : List Char → Nat
  | [] => 0
  | c :: t => (if startsWith pat (c :: t) then 1 else 0) + countSub pat t

/-- The match of `pat` against `l` fails within `l` itself, independently
of any continuation appended after `l`. -/
def failsIn : List Char → List Char → Bool
  | [], _ => false
  | _ :: _, [] => false
  | p :: ps, c :: cs => if p = c then failsIn ps cs else true

/-- No position of `l` can start a match of `pat`, whatever follows `l`. -/
def noStartB (pat : List Char) : List Char → Bool
  | [] => true
  | c :: t => failsIn pat (c :: t) && noStartB pat t

theorem startsWith_self_append (p r : List Char) : startsWith p (p ++ r) = true := by
  induction p with
  | nil => rfl
  | cons c cs ih =>
    show (if c = c then startsWith cs (cs ++ r) else false) = true
    rw [if_pos rfl, ih]

theorem failsIn_append (p l b : List Char) (h : failsIn p l = true) :
    startsWith p (l ++ b) = false := by
  induction l generalizing p with
  | nil =>
    cases p with
    | nil => cases h
    | cons pc ps => cases h
  | cons c cs ih =>
    cases p with
    | nil => cases h
    | cons pc ps =>
      by_cases hpc : pc = c
      · subst hpc
        rw [show failsIn (pc :: ps) (pc :: cs) =
          (if pc = pc then failsIn ps cs else true) from rfl, if_pos rfl] at h
        show (if pc = pc then startsWith ps (cs ++ b) else false) = false
        rw [if_pos rfl]
        exact ih ps h
      · show (if pc = c then startsWith ps (cs ++ b) else false) = false
        rw [if_neg hpc]

theorem countSub_append_noStart (p a b : List Char) (h : noStartB p a = true) :
    countSub p (a ++ b) = countSub p b := by
  induction a with
  | nil => rfl
  | cons c t ih =>
    rw [show noStartB p (c :: t) = (failsIn p (c :: t) && noStartB p t) from rfl,
      Bool.and_eq_true] at h
    have hs : startsWith p ((c :: t) ++ b) = false := failsIn_append p (c :: t) b h.1
    rw [List.cons_append] at hs ⊢
    rw [show countSub p (c :: (t ++ b)) =
      (if startsWith p (c :: (t ++ b)) then 1 else 0) + countSub p (t ++ b) from rfl]
    rw [hs]
    simp [ih h.2]

theorem noStartB_of_head_not_mem (hc : Char) (ps a : List Char) (h : hc ∉ a) :
    noStartB (hc :: ps) a = true := by
  induction a with
  | nil => rfl
  | cons c t ih =>
    have h1 : hc ≠ c := fun he => h (he ▸ List.mem_cons_self c t)
    have h2 : hc ∉ t := fun he => h (List.mem_cons_of_mem c he)
    rw [show noStartB (hc :: ps) (c :: t) =
      (failsIn (hc :: ps) (c :: t) && noStartB (hc :: ps) t) from rfl]
    rw [show failsIn (hc :: ps) (c :: t) = (if hc = c then failsIn ps t else true)
      from rfl]
    rw [if_neg h1, ih h2]
    rfl

theorem countSub_append_no_lt (a b : List Char) (h : '<' ∉ a) :
    countSub sheetPat (a ++ b) = countSub sheetPat b :=
  countSub_append_noStart sheetPat a b
    (noStartB_of_head_not_mem '<' ['S', 'h', 'e', 'e', 't', ' ', 'n', 'a', 'm', 'e', '=', '"'] a h)

theorem startsWith_no_space_gt (q t r : List Char) (hq : ' ' ∈ q)
    (hq2 : '>' ∉ q) (ht : ' ' ∉ t) :
    startsWith q (t ++ '>' :: r) = false := by
  induction t generalizing q with
  | nil =>
    cases q with
    | nil => cases hq
    | cons q0 qs =>
      have hne : q0 ≠ '>' := fun he => hq2 (he ▸ List.mem_cons_self q0 qs)
      show (if q0 = '>' then startsWith qs r else false) = false
      rw [if_neg hne]
  | cons c cs ih =>
    cases q with
    | nil => cases hq
    | cons q0 qs =>
      by_cases h0 : q0 = c
      · subst h0
        have hcne : q0 ≠ ' ' := fun he => ht (he ▸ List.mem_cons_self q0 cs)
        have hq' : ' ' ∈ qs := by
          rcases List.mem_cons.mp hq with h | h
          · exact absurd h.symm hcne
          · exact h
        have hq2' : '>' ∉ qs := fun hh => hq2 (List.mem_cons_of_mem q0 hh)
        have ht' : ' ' ∉ cs := fun hh => ht (List.mem_cons_of_mem q0 hh)
        show (if q0 = q0 then startsWith qs (cs ++ '>' :: r) else false) = false
        rw [if_pos rfl]
        exact ih qs hq' hq2' ht'
      · show (if q0 = c then startsWith qs (cs ++ '>' :: r) else false) = false
        rw [if_neg h0]

theorem startsWith_pat_open (tag r : List Char) (ht : ' ' ∉ tag) :
    startsWith sheetPat ('<' :: (tag ++ '>' :: r)) = false := by
  show (if '<' = '<' then
    startsWith ['S', 'h', 'e', 'e', 't', ' ', 'n', 'a', 'm', 'e', '=', '"']
      (tag ++ '>' :: r) else false) = false
  rw [if_pos rfl]
  exact startsWith_no_space_gt _ tag r (by decide) (by decide) ht

theorem countSub_cons_false (p : List Char) (c : Char) (t : List Char)
    (h : startsWith p (c :: t) = false) : countSub p (c :: t) = countSub p t := by
  rw [show countSub p (c :: t) =
    (if startsWith p (c :: t) then 1 else 0) + countSub p t from rfl]
  rw [h, if_neg (by simp)]
  simp

theorem countSub_cellXml (tag val b : List Char)
    (htag : ∀ c ∈ tag, isTagChar c = true) (hval : '<' ∉ val) :
    countSub sheetPat (cellXml tag val ++ b) = countSub sheetPat b := by
  have hlt : '<' ∉ tag := fun h => absurd (htag '<' h) (by decide)
  have hsp : ' ' ∉ tag := fun h => absurd (htag ' ' h) (by decide)
  have e1 : cellXml tag val ++ b =
      [' ', ' ', ' ', ' ', ' ', ' '] ++
        ('<' :: (tag ++ ('>' ::
          ((val ++ ('<' :: ('/' :: (tag ++ ['>', '\n'])))) ++ b)))) := by
    unfold cellXml
    simp [List.append_assoc]
  rw [e1, countSub_append_no_lt _ _ (by decide)]
  have e2 : (val ++ ('<' :: ('/' :: (tag ++ ['>', '\n'])))) ++ b =
      val ++ (('<' :: ('/' :: (tag ++ ['>', '\n']))) ++ b) := by
    simp [List.append_assoc]
  rw [e2, countSub_cons_false _ _ _ (startsWith_pat_open tag _ hsp)]
  have e3 : tag ++ ('>' :: (val ++ (('<' :: ('/' :: (tag ++ ['>', '\n']))) ++ b))) =
      (tag ++ ('>' :: val)) ++ (('<' :: ('/' :: (tag ++ ['>', '\n']))) ++ b) := by
    simp [List.append_assoc]
  rw [e3, countSub_append_no_lt (tag ++ ('>' :: val)) _ (by
    intro hmem
    rcases List.mem_append.mp hmem with h | h
    · exact hlt h
    · rcases List.mem_cons.mp h with h | h
      · cases h
      · exact hval h)]
  have e4 : ('<' :: ('/' :: (tag ++ ['>', '\n']))) ++ b =
      '<' :: ('/' :: ((tag ++ ['>', '\n']) ++ b)) := by
    simp [List.append_assoc]
  rw [e4, countSub_cons_false _ _ _ (by
    show (if '<' = '<' then
      startsWith ['S', 'h', 'e', 'e', 't', ' ', 'n', 'a', 'm', 'e', '=', '"']
        ('/' :: ((tag ++ ['>', '\n']) ++ b)) else false) = false
    rw [if_pos rfl]
    rfl)]
  have e5 : '/' :: ((tag ++ ['>', '\n']) ++ b) =
      ('/' :: (tag ++ ['>', '\n'])) ++ b := by
    simp [List.append_assoc]
  rw [e5, countSub_append_no_lt _ _ (by
    intro hmem
    rcases List.mem_cons.mp hmem with h | h
    · cases h
    · rcases List.mem_append.mp h with h | h
      · exact hlt h
      · rcases List.mem_cons.mp h with h | h
        · cases h
        · rcases List.mem_cons.mp h with h | h
          · cases h
          · cases h)]

theorem countSub_cells_join (headers : List (List Char)) (i : Nat)
    (row : List (List Char)) (b : List Char) :
    countSub sheetPat (List.flatten (rowCellsAux headers i row) ++ b) =
      countSub sheetPat b := by
  induction row generalizing i with
  | nil => rfl
  | cons cell cells ih =>
    rw [show rowCellsAux headers i (cell :: cells) =
      cellXml (tagFor headers i) (escapeXml cell) :: rowCellsAux headers (i + 1) cells
      from rfl]
    rw [List.flatten_cons, List.append_assoc]
    rw [countSub_cellXml _ _ _ (tagFor_tagChar headers i) (escapeXml_lt_not_mem cell)]
    exact ih (i + 1)

theorem countSub_rowXml (headers row : List (List Char)) (b : List Char) :
    countSub sheetPat (rowXml headers row ++ b) = countSub sheetPat b := by
  unfold rowXml
  rw [List.append_assoc, List.append_assoc]
  rw [countSub_append_noStart sheetPat rowOpen _ (by decide)]
  rw [countSub_cells_join headers 0 row]
  exact countSub_append_noStart sheetPat rowClose b (by decide)

theorem countSub_rows_join (headers : List (List Char))
    (rows : List (List (List Char))) (b : List Char) :
    countSub sheetPat
      (List.flatten ((rows.filter rowNonEmpty).map (rowXml headers)) ++ b) =
      countSub sheetPat b := by
  induction rows with
  | nil => rfl
  | cons r rs ih =>
    by_cases h : rowNonEmpty r = true
    · rw [List.filter_cons, if_pos h, List.map_cons, List.flatten_cons, List.append_assoc]
      rw [countSub_rowXml headers r]
      exact ih
    · rw [List.filter_cons, if_neg (by simpa using h)]
      exact ih

theorem countSub_sheetBody (s : SheetData) (b : List Char) :
    countSub sheetPat (sheetBody s ++ b) = countSub sheetPat b := by
  obtain ⟨name, data⟩ := s
  cases data with
  | nil => rfl
  | cons headers rest =>
    rw [show sheetBody ⟨name, headers :: rest⟩ =
      List.flatten ((rest.filter rowNonEmpty).map (rowXml headers)) from rfl]
    exact countSub_rows_join headers rest b

theorem countSub_sheetXml (s : SheetData) (b : List Char) :
    countSub sheetPat (sheetXml s ++ b) = 1 + countSub sheetPat b := by
  unfold sheetXml
  have e1 : attrOpen ++ escapeXml s.name ++ attrClose ++ sheetBody s ++
      sheetCloseStr ++ b =
      ' ' :: ' ' :: (sheetPat ++
        (escapeXml s.name ++ (attrClose ++ (sheetBody s ++ (sheetCloseStr ++ b))))) := by
    rw [show attrOpen = ' ' :: ' ' :: sheetPat from rfl]
    simp [List.append_assoc]
  rw [e1]
  rw [countSub_cons_false _ _ _ (by rfl)]
  rw [countSub_cons_false _ _ _ (by rfl)]
  have e2 : sheetPat ++
      (escapeXml s.name ++ (attrClose ++ (sheetBody s ++ (sheetCloseStr ++ b)))) =
      '<' :: (['S', 'h', 'e', 'e', 't', ' ', 'n', 'a', 'm', 'e', '=', '"'] ++
        (escapeXml s.name ++ (attrClose ++ (sheetBody s ++ (sheetCloseStr ++ b))))) := rfl
  rw [e2]
  rw [show countSub sheetPat ('<' ::
      (['S', 'h', 'e', 'e', 't', ' ', 'n', 'a', 'm', 'e', '=', '"'] ++
        (escapeXml s.name ++ (attrClose ++ (sheetBody s ++ (sheetCloseStr ++ b)))))) =
    (if startsWith sheetPat ('<' ::
      (['S', 'h', 'e', 'e', 't', ' ', 'n', 'a', 'm', 'e', '=', '"'] ++
        (escapeXml s.name ++ (attrClose ++ (sheetBody s ++ (sheetCloseStr ++ b)))))) then 1
      else 0) +
    countSub sheetPat
      (['S', 'h', 'e', 'e', 't', ' ', 'n', 'a', 'm', 'e', '=', '"'] ++
        (escapeXml s.name ++ (attrClose ++ (sheetBody s ++ (sheetCloseStr ++ b)))))
    from rfl]
  rw [show ('<' :: (['S', 'h', 'e', 'e', 't', ' ', 'n', 'a', 'm', 'e', '=', '"'] ++
      (escapeXml s.name ++ (attrClose ++ (sheetBody s ++ (sheetCloseStr ++ b)))))) =
    sheetPat ++ (escapeXml s.name ++ (attrClose ++ (sheetBody s ++ (sheetCloseStr ++ b))))
    from rfl]
  rw [startsWith_self_append, if_pos rfl]
  rw [countSub_append_no_lt _ _ (by decide)]
  rw [countSub_append_no_lt _ _ (escapeXml_lt_not_mem s.name)]
  rw [countSub_append_no_lt attrClose _ (by decide)]
  rw [countSub_sheetBody s]
  rw [countSub_append_noStart sheetPat sheetCloseStr b (by decide)]

theorem countSub_sheets_join (l : List SheetData) (b : List Char) :
    countSub sheetPat (List.flatten (l.map sheetXml) ++ b) =
      l.length + countSub sheetPat b := by
  induction l with
  | nil => simp [List.flatten]
  | cons s t ih =>
    rw [List.map_cons, List.flatten_cons, List.append_assoc, countSub_sheetXml s, ih]
    simp only [List.length_cons]
    omega

theorem filter_map_name (sheets : List SheetData) (sel : Finset (List Char)) :
    (sheets.filter fun s => decide (s.name ∈ sel)).map SheetData.name =
      (sheets.map SheetData.name).filter fun n => decide (n ∈ sel) := by
  induction sheets with
  | nil => rfl
  | cons s t ih =>
    by_cases h : s.name ∈ sel
    · simp [List.filter_cons, h, ih]
    · simp [List.filter_cons, h, ih]

theorem filter_length_eq_card (L : List (List Char)) (sel : Finset (List Char))
    (hd : L.Nodup) (hs : ∀ x ∈ sel, x ∈ L) :
    (L.filter fun n => decide (n ∈ sel)).length = sel.card := by
  have hnd : (L.filter fun n => decide (n ∈ sel)).Nodup := hd.filter _
  have h1 : (L.filter fun n => decide (n ∈ sel)).toFinset = sel := by
    ext x
    simp only [List.mem_toFinset, List.mem_filter, decide_eq_true_eq]
    exact ⟨fun h => h.2, fun h => ⟨hs x h, h⟩⟩
  have h2 : sel.card = (L.filter fun n => decide (n ∈ sel)).toFinset.card := by
    rw [h1]
  rw [h2, List.toFinset_card_of_nodup hnd]

/-- Claim C5: for sheets with pairwise-distinct names and a selection that
is a subset of those names, the serialized document contains exactly one
sheet-opening `<Sheet name="` occurrence per selected name, and the
serialized sheets keep the extraction order (filtering the sheet list by
selection agrees with filtering the name list by selection). -/
theorem sheet_count_and_order (sheets : List SheetData) (sel : Finset (List Char))
    (hd : (sheets.map SheetData.name).Nodup)
    (hs : ∀ x ∈ sel, x ∈ sheets.map SheetData.name)
    (out : List Char) (hout : convertToXml sheets sel = Except.ok out) :
    countSub sheetPat out = sel.card ∧
    (sheets.filter fun s => decide (s.name ∈ sel)).map SheetData.name =
      (sheets.map SheetData.name).filter fun n => decide (n ∈ sel) := by
  refine ⟨?_, filter_map_name sheets sel⟩
  unfold convertToXml at hout
  by_cases hc : sheets.length = 0 ∨ sel.card = 0
  · rw [if_pos hc] at hout
    exact absurd hout (by simp)
  · rw [if_neg hc] at hout
    have hout2 : out = xmlHeaderChars ++
        List.flatten (((sheets.filter fun s => decide (s.name ∈ sel)).map sheetXml)) ++
        footerChars := by
      injection hout with h
      exact h.symm
    rw [hout2, List.append_assoc]
    rw [countSub_append_noStart sheetPat xmlHeaderChars _ (by decide)]
    rw [countSub_sheets_join]
    have hfoot : countSub sheetPat footerChars = 0 := by decide
    rw [hfoot]
    have hlen : (sheets.filter fun s => decide (s.name ∈ sel)).length =
        ((sheets.map SheetData.name).filter fun n => decide (n ∈ sel)).length := by
      have h := congrArg List.length (filter_map_name sheets sel)
      simpa [List.length_map] using h
    rw [Nat.add_zero, hlen, filter_length_eq_card (sheets.map SheetData.name) sel hd hs]

/-- Witness for C5 on a concrete workbook. -/
theorem sheet_count_and_order_witness :
    countSub sheetPat
      (xmlHeaderChars ++
        List.flatten ((([⟨['A'], []⟩] : List SheetData).filter fun s =>
          decide (s.name ∈ ({['A']} : Finset (List Char)))).map sheetXml) ++
        footerChars) = ({['A']} : Finset (List Char)).card ∧
    (([⟨['A'], []⟩] : List SheetData).filter fun s =>
        decide (s.name ∈ ({['A']} : Finset (List Char)))).map SheetData.name =
      (([⟨['A'], []⟩] : List SheetData).map SheetData.name).filter fun n =>
        decide (n ∈ ({['A']} : Finset (List Char))) :=
  sheet_count_and_order [⟨['A'], []⟩] {['A']} (by decide) (by decide) _ rfl

/-- ASCII lower-casing of one character, the case folding the `i` regex
flag performs on the letters of the extension pattern. -/
def lowerChar (c : Char) : Char :=
  if decide ('A' ≤ c) && decide (c ≤ 'Z') then Char.ofNat (c.toNat + 32) else c

/-- The accepted MIME types from the source's `validTypes` array. -/
def validTypes : List (List Char) :=
  ["application/vnd.openxmlformats-officedocument.spreadsheetml.sheet".toList,
   "application/vnd.ms-excel".toList,
   "text/csv".toList]

/-- The test `name.match(/\.(xlsx|xls|csv)$/i)`: the lower-cased filename
ends in one of the three dotted extensions (checked as reversed prefixes). -/
def extMatches (name : List Char) : Bool :=
  let r := (name.map lowerChar).reverse
  startsWith ['x', 's', 'l', 'x', '.'] r ||
    startsWith ['s', 'l', 'x', '.'] r ||
    startsWith ['v', 's', 'c', '.'] r

inductive UploadError where
  | UnsupportedFormat
deriving DecidableEq

/-- The upload guard `validTypes.includes(type) || name matches extension`. -/
def uploadAccepted (mime name : List Char) : Bool :=
  decide (mime ∈ validTypes) || extMatches name

/-- Model of `handleFileUpload`: the format check runs before any parsing,
so the parse result is consulted only when the format is accepted; a
rejected file yields the error and nothing else. -/
def handleFileUpload (mime name : List Char) (parsed : List SheetData) :
    Except UploadError (List SheetData) :=
  if uploadAccepted mime name then Except.ok parsed
  else Except.error UploadError.UnsupportedFormat

/-- Claim C8: a file whose MIME type is outside the accepted set and whose
name does not match the extension pattern is rejected with
`UnsupportedFormat` irrespective of what the parser would have produced,
i.e. before any parse attempt and without touching the loaded state. -/
theorem upload_rejects_unsupported (mime name : List Char)
    (hm : mime ∉ validTypes) (he : extMatches name = false) :
    ∀ parsed, handleFileUpload mime name parsed =
      Except.error UploadError.UnsupportedFormat := by
  intro parsed
  unfold handleFileUpload uploadAccepted
  rw [if_neg (by simp [hm, he])]

/-- Witness for C8: the spec's scenario of `report.txt` with MIME
`text/plain`. -/
theorem upload_rejects_unsupported_witness :
    handleFileUpload "text/plain".toList "report.txt".toList [] =
      Except.error UploadError.UnsupportedFormat :=
  upload_rejects_unsupported "text/plain".toList "report.txt".toList
    (by decide) (by decide) []

end ExcelXml
